import Mathlib

/-!
Verification of the encoder/decoder core of the CrossLingualMorphTagger
repository (`morph_tagger/layers.py`, `morph_tagger/predict.py`).

The neural-network numerics (GRU recurrences, linear layers, softmax,
sigmoid) are real-valued computations whose exact values no claim depends
on; they are embedded as abstract functions inside small model structures,
while all the control flow of the source (greedy decoding, beam search,
segment-sum pooling, threshold decoding, sentence assembly) is translated
into executable Lean definitions.  Python floats are modelled as `ℚ`
(exact arithmetic), Python strings as `String`, Python lists as `List`.
-/

/-- Python `"".join(xs)`: concatenation of a list of strings. -/
def strJoin : List String → String
  | [] => ""
  | s :: rest => s ++ strJoin rest

/-- Insert into a descending-ordered list, keeping earlier elements first on
ties — together with `sortDesc` this models Python's stable
`sorted(..., key=f, reverse=True)`. -/
def insertDesc (f : α → ℚ) (a : α) : List α → List α
  | [] => [a]
  | b :: bs => if f b ≤ f a then a :: b :: bs else b :: insertDesc f a bs

/-- Stable sort by key, descending: Python `sorted(l, key=f, reverse=True)`. -/
def sortDesc (f : α → ℚ) : List α → List α
  | [] => []
  | a :: as => insertDesc f a (sortDesc f as)

/-- Leftmost maximum of a list of rationals, as `(index, value)`
(`none` for the empty list). -/
def argmaxP : List ℚ → Option (ℕ × ℚ)
  | [] => none
  | x :: xs =>
    match argmaxP xs with
    | none => some (0, x)
    | some jv => if jv.2 ≤ x then some (0, x) else some (jv.1 + 1, jv.2)

/-- Index of the leftmost maximum (0 on the empty list): the index returned
by `torch.topk(1)` / arg-max with ties resolved to the lowest index. -/
def argmaxIdx (l : List ℚ) : ℕ :=
  match argmaxP l with
  | none => 0
  | some jv => jv.1

/-- `torch.topk(k)` over a score list: the `k` largest entries as
`(index, value)` pairs, values descending, ties by ascending index. -/
def topk (k : ℕ) (l : List ℚ) : List (ℕ × ℚ) :=
  (sortDesc (fun p => p.2) l.enum).take k

/-- Abstract model of a `DecoderRNN` instance at inference time.
`α`/`β`/`γ` are the types of the word representation, the context vector
and the transformer context; `σ` is the type of the GRU hidden state.
`initHidden` embeds the hidden-state initialisation that both `predict`
and `predict_beam` perform identically (`relu(W(context))` stacked with
the word embedding and the optional `relu(transformer_context)`).
`step` embeds one decoding step: embed the previous token, advance the
GRU, apply the classifier; its second component is the resulting
probability distribution over the output vocabulary (the softmax of the
classifier scores — `predict` arg-maxes the raw scores and `predict_beam`
arg-maxes their softmax, which order the vocabulary identically since
softmax is strictly monotone). `index2token` is the inverse vocabulary. -/
structure DecoderModel (α β γ σ : Type) where
  initHidden : α → β → Option γ → σ
  step : σ → ℕ → σ × List ℚ
  index2token : ℕ → String

/-- The loop body of `DecoderRNN.predict` (layers.py:236-248): at each of at
most `fuel` steps, advance one GRU step from the last predicted token,
arg-max the scores, stop on END (id 1), and append the decoded symbol
only when its id is `> 2` (PAD/END/START are ids 0/1/2). -/
def greedyLoop (M : DecoderModel α β γ σ) : ℕ → σ → ℕ → List String
  | 0, _, _ => []
  | fuel + 1, h, tok =>
    let hp := M.step h tok
    let t := argmaxIdx hp.2
    if t = 1 then []
    else if 2 < t then M.index2token t :: greedyLoop M fuel hp.1 t
    else greedyLoop M fuel hp.1 t

/-- Same loop as `greedyLoop`, recording the ids of the appended symbols
rather than their `index2token` images. -/
def greedyIds (M : DecoderModel α β γ σ) : ℕ → σ → ℕ → List ℕ
  | 0, _, _ => []
  | fuel + 1, h, tok =>
    let hp := M.step h tok
    let t := argmaxIdx hp.2
    if t = 1 then []
    else if 2 < t then t :: greedyIds M fuel hp.1 t
    else greedyIds M fuel hp.1 t

/-- `DecoderRNN.predict` (layers.py:199-250): greedy decoding from the START
seed (id 2), up to `maxLen` steps.  The returned value is the
`predictions` list (the `scores` tensor also returned by the source is
dropped: no claim concerns it). -/
def DecoderRNN.predict (M : DecoderModel α β γ σ) (w : α) (cv : β) (tc : Option γ)
    (maxLen : ℕ) : List String :=
  greedyLoop M maxLen (M.initHidden w cv tc) 2

/-- One step of the deterministic arg-max recurrence underlying greedy
decoding: from (hidden, last token) to (new hidden, arg-max token). -/
def traceStep (M : DecoderModel α β γ σ) (st : σ × ℕ) : σ × ℕ :=
  let hp := M.step st.1 st.2
  (hp.1, argmaxIdx hp.2)

/-- The token the greedy arg-max recurrence produces at step `i` when run
from hidden state `h0` and the START seed. -/
def traceTok (M : DecoderModel α β γ σ) (h0 : σ) (i : ℕ) : ℕ :=
  ((traceStep M)^[i + 1] (h0, 2)).2

theorem greedyIds_length_le (M : DecoderModel α β γ σ) :
    ∀ (fuel : ℕ) (h : σ) (tok : ℕ), (greedyIds M fuel h tok).length ≤ fuel := by
  intro fuel
  induction fuel with
  | zero => intro h tok; simp [greedyIds]
  | succ n ih =>
    intro h tok
    simp only [greedyIds]
    split
    · simp
    · split
      · simpa using Nat.succ_le_succ (ih _ _)
      · exact (ih _ _).trans (Nat.le_succ n)

theorem greedyIds_gt_two (M : DecoderModel α β γ σ) :
    ∀ (fuel : ℕ) (h : σ) (tok : ℕ), ∀ t ∈ greedyIds M fuel h tok, 2 < t := by
  intro fuel
  induction fuel with
  | zero => intro h tok t ht; simp [greedyIds] at ht
  | succ n ih =>
    intro h tok t ht
    simp only [greedyIds] at ht
    split at ht
    · simp at ht
    · split at ht
      · rcases List.mem_cons.mp ht with h1 | h2
        · subst h1; assumption
        · exact ih _ _ _ h2
      · exact ih _ _ _ ht

theorem greedyLoop_eq_map (M : DecoderModel α β γ σ) :
    ∀ (fuel : ℕ) (h : σ) (tok : ℕ),
      greedyLoop M fuel h tok = (greedyIds M fuel h tok).map M.index2token := by
  intro fuel
  induction fuel with
  | zero => intro h tok; simp [greedyLoop, greedyIds]
  | succ n ih =>
    intro h tok
    simp only [greedyLoop, greedyIds]
    split
    · simp
    · split
      · simp [ih]
      · exact ih _ _

/-- The greedy loop is the arg-max trace truncated at the first END (id 1)
and filtered to ids `> 2`. -/
theorem greedyIds_eq_trace (M : DecoderModel α β γ σ) :
    ∀ (fuel : ℕ) (st : σ × ℕ),
      greedyIds M fuel st.1 st.2 =
        (((List.range fuel).map
            (fun i => ((traceStep M)^[i + 1] st).2)).takeWhile (fun t => t ≠ 1)).filter
          (fun t => 2 < t) := by
  intro fuel
  induction fuel with
  | zero => intro st; simp [greedyIds]
  | succ n ih =>
    intro st
    rw [List.range_succ_eq_map]
    simp only [List.map_cons, List.map_map]
    have hmap : ((fun i => ((traceStep M)^[i + 1] st).2) ∘ Nat.succ) =
        (fun i => ((traceStep M)^[i + 1] (traceStep M st)).2) := by
      funext i
      simp [Function.comp, Function.iterate_succ_apply]
    rw [hmap]
    have hone : ((traceStep M)^[0 + 1] st).2 = argmaxIdx (M.step st.1 st.2).2 := by
      simp [traceStep]
    simp only [greedyIds, hone]
    by_cases h1 : argmaxIdx (M.step st.1 st.2).2 = 1
    · simp [h1, List.takeWhile]
    · rw [if_neg h1]
      have hst : traceStep M st = ((M.step st.1 st.2).1, argmaxIdx (M.step st.1 st.2).2) := by
        simp [traceStep]
      have hrest := ih (traceStep M st)
      rw [hst] at hrest
      simp only [hst]
      by_cases h2 : 2 < argmaxIdx (M.step st.1 st.2).2
      · rw [if_pos h2]
        simp [List.takeWhile_cons, List.filter_cons, h1, h2, hrest]
      · rw [if_neg h2]
        simp [List.takeWhile_cons, List.filter_cons, h1, h2, hrest]

/-- A beam-search candidate: the `State` namedtuple of
`DecoderRNN.predict_beam` (layers.py:270). -/
structure BState (σ : Type) where
  prediction : String
  score : ℚ
  normalized_score : ℚ
  last_output : ℕ
  hidden : σ
deriving DecidableEq

/-- One candidate's expansion in `DecoderRNN.predict_beam`
(layers.py:290-315): a candidate whose partial output already reached
`surface_len + 2` is dropped (`continue`); otherwise one GRU step is taken
from its last output, the softmax scores are computed and their top
`beam_size` entries each produce a child whose cumulative score is the
parent's score times the child probability.  A child emitting END (id 1)
keeps the parent's prediction and is length-normalized with the extra
`surface_len / prediction_len` factor; any other child appends its token
to the prediction.  Returns (in-progress children, completed children). -/
def expandState (M : DecoderModel α β γ σ) (surfaceLen beamSize : ℕ)
    (s : BState σ) : List (BState σ) × List (BState σ) :=
  if surfaceLen + 2 ≤ s.prediction.length then ([], [])
  else
    let hp := M.step s.hidden s.last_output
    let children := (topk beamSize hp.2).map (fun p =>
      let sc := s.score * p.2
      if p.1 = 1 then
        let plen : ℚ := (s.prediction.length : ℚ) + 1
        ⟨s.prediction, sc, (sc / ((5 + plen) / 6)) * ((surfaceLen : ℚ) / plen), p.1, hp.1⟩
      else
        let pred := s.prediction ++ M.index2token p.1
        ⟨pred, sc, sc / ((5 + (pred.length : ℚ)) / 6), p.1, hp.1⟩)
    (children.filter (fun st => st.last_output ≠ 1),
     children.filter (fun st => st.last_output = 1))

/-- One round of the outer `while states` loop of `predict_beam`: every
queued candidate is expanded in order; the first component collects the
`new_states` list and the second the newly completed candidates, both in
the order the source appends them. -/
def beamRound (M : DecoderModel α β γ σ) (surfaceLen beamSize : ℕ)
    (states : List (BState σ)) : List (BState σ) × List (BState σ) :=
  ((states.map (fun s => (expandState M surfaceLen beamSize s).1)).flatten,
   (states.map (fun s => (expandState M surfaceLen beamSize s).2)).flatten)

/-- The `while states:` loop of `predict_beam` (layers.py:287-317): rounds
are repeated, after each one only the top `beam_size` in-progress
candidates by normalized score survive (stable descending sort, then
truncation), and completed candidates accumulate.  `fuel` bounds the
number of rounds; `surfaceLen + 3` rounds are always enough when every
vocabulary token is a nonempty string, because each round grows every
surviving prediction and candidates at length `surfaceLen + 2` are
dropped (with an empty token string the Python loop would not
terminate). -/
def beamLoop (M : DecoderModel α β γ σ) (surfaceLen beamSize : ℕ) :
    ℕ → List (BState σ) → List (BState σ) → List (BState σ)
  | _, [], completed => completed
  | 0, _ :: _, completed => completed
  | fuel + 1, s :: rest, completed =>
    let r := beamRound M surfaceLen beamSize (s :: rest)
    beamLoop M surfaceLen beamSize fuel
      ((sortDesc (fun st => st.normalized_score) r.1).take beamSize)
      (completed ++ r.2)

/-- The final `completed_states` list of one `predict_beam` call, seeded
from the single START state `('', 1.0, 1.0, 2, hidden)`. -/
def beamCompleted (M : DecoderModel α β γ σ) (w : α) (cv : β) (tc : Option γ)
    (surfaceLen beamSize : ℕ) : List (BState σ) :=
  beamLoop M surfaceLen beamSize (surfaceLen + 3)
    [⟨"", 1, 1, 2, M.initHidden w cv tc⟩] []

/-- `DecoderRNN.predict_beam` (layers.py:252-318): the prediction of the
best completed candidate by normalized score.  The source indexes
`sorted(completed_states, ...)[0]`, which raises `IndexError` when no
candidate ever completed; that failure is modelled as `none`. -/
def DecoderRNN.predict_beam (M : DecoderModel α β γ σ) (w : α) (cv : β)
    (tc : Option γ) (surfaceLen beamSize : ℕ) : Option String :=
  ((sortDesc (fun st => st.normalized_score)
      (beamCompleted M w cv tc surfaceLen beamSize)).head?).map
    (fun st => st.prediction)

theorem insertDesc_ne_nil (f : α → ℚ) (a : α) (l : List α) :
    insertDesc f a l ≠ [] := by
  cases l with
  | nil => simp [insertDesc]
  | cons b bs =>
    simp only [insertDesc]
    split <;> simp

theorem mem_insertDesc (f : α → ℚ) (a x : α) :
    ∀ l : List α, x ∈ insertDesc f a l ↔ x = a ∨ x ∈ l := by
  intro l
  induction l with
  | nil => simp [insertDesc]
  | cons b bs ih =>
    simp only [insertDesc]
    split
    · simp [List.mem_cons]
    · simp only [List.mem_cons, ih]
      tauto

theorem mem_sortDesc (f : α → ℚ) (x : α) :
    ∀ l : List α, x ∈ sortDesc f l ↔ x ∈ l := by
  intro l
  induction l with
  | nil => simp [sortDesc]
  | cons a as ih =>
    simp only [sortDesc, mem_insertDesc, List.mem_cons, ih]

/-- The head of the stable descending sort is a member attaining the
maximal key. -/
theorem sortDesc_head_max (f : α → ℚ) :
    ∀ l : List α, l ≠ [] →
      ∃ b, (sortDesc f l).head? = some b ∧ b ∈ l ∧ ∀ x ∈ l, f x ≤ f b := by
  intro l
  induction l with
  | nil => intro h; exact absurd rfl h
  | cons a as ih =>
    intro _
    simp only [sortDesc]
    cases hsd : sortDesc f as with
    | nil =>
      have hasnil : as = [] := by
        cases as with
        | nil => rfl
        | cons y ys =>
          exact absurd hsd (by simp [sortDesc]; exact insertDesc_ne_nil f y _)
      subst hasnil
      refine ⟨a, by simp [insertDesc], by simp, ?_⟩
      intro x hx
      simp at hx
      simp [hx]
    | cons c cs =>
      have hasne : as ≠ [] := by
        intro h
        rw [h] at hsd
        simp [sortDesc] at hsd
      obtain ⟨b, hb1, hb2, hb3⟩ := ih hasne
      rw [hsd] at hb1
      simp at hb1
      subst hb1
      simp only [insertDesc]
      by_cases hba : f c ≤ f a
      · rw [if_pos hba]
        refine ⟨a, rfl, by simp, ?_⟩
        intro x hx
        rcases List.mem_cons.mp hx with h1 | h2
        · simp [h1]
        · exact (hb3 x h2).trans hba
      · rw [if_neg hba]
        refine ⟨c, rfl, by simp [hb2], ?_⟩
        intro x hx
        rcases List.mem_cons.mp hx with h1 | h2
        · subst h1
          exact le_of_lt (lt_of_not_le hba)
        · exact hb3 x h2

theorem argmaxP_isSome (x : ℚ) (xs : List ℚ) : (argmaxP (x :: xs)).isSome := by
  simp only [argmaxP]
  cases argmaxP xs with
  | none => simp
  | some jv =>
    simp only
    split <;> simp

/-- The head of the stable descending sort of an enumerated score list is
exactly the leftmost maximum found by `argmaxP`. -/
theorem sortDesc_enumFrom_head (l : List ℚ) :
    ∀ n : ℕ, (sortDesc (fun p => p.2) (List.enumFrom n l)).head? =
      (argmaxP l).map (fun jv => (jv.1 + n, jv.2)) := by
  induction l with
  | nil => intro n; simp [sortDesc, argmaxP]
  | cons x xs ih =>
    intro n
    have hstep : List.enumFrom n (x :: xs) = (n, x) :: List.enumFrom (n + 1) xs := rfl
    rw [hstep]
    simp only [sortDesc]
    cases hsd : sortDesc (fun p => p.2) (List.enumFrom (n + 1) xs) with
    | nil =>
      have hxs : argmaxP xs = none := by
        cases xs with
        | nil => simp [argmaxP]
        | cons y ys =>
          exfalso
          have := insertDesc_ne_nil (fun p : ℕ × ℚ => p.2) (n + 1, y)
            (sortDesc (fun p => p.2) (List.enumFrom (n + 1 + 1) ys))
          exact this (by simpa [sortDesc] using hsd)
      have hxsnil : xs = [] := by
        cases xs with
        | nil => rfl
        | cons y ys => simp [argmaxP] at hxs; cases h2 : argmaxP ys <;> simp [h2] at hxs <;> split at hxs <;> simp_all
      subst hxsnil
      simp [insertDesc, argmaxP]
    | cons c cs =>
      have hc := ih (n + 1)
      rw [hsd] at hc
      simp only [List.head?] at hc
      cases hxs : argmaxP xs with
      | none =>
        rw [hxs] at hc
        simp at hc
      | some jv =>
        rw [hxs] at hc
        simp at hc
        simp only [insertDesc, argmaxP, hxs]
        by_cases hle : jv.2 ≤ x
        · have : c.2 ≤ x := by rw [hc]; exact hle
          rw [if_pos this]
          simp [hle]
        · have : ¬ c.2 ≤ x := by rw [hc]; exact hle
          rw [if_neg this]
          simp only [if_neg hle]
          simp [hc]
          omega
  
/-- `torch.topk(1)` returns exactly the greedy arg-max index. -/
theorem topk_one (l : List ℚ) (hl : l ≠ []) :
    ∃ v, topk 1 l = [(argmaxIdx l, v)] := by
  obtain ⟨x, xs, rfl⟩ := List.exists_cons_of_ne_nil hl
  have hsome := argmaxP_isSome x xs
  obtain ⟨jv, hjv⟩ := Option.isSome_iff_exists.mp hsome
  have hhead := sortDesc_enumFrom_head (x :: xs) 0
  rw [hjv] at hhead
  simp at hhead
  refine ⟨jv.2, ?_⟩
  have henum : (x :: xs).enum = List.enumFrom 0 (x :: xs) := rfl
  simp [topk, henum, List.take_one, hhead, argmaxIdx, hjv]

theorem beamLoop_nil (M : DecoderModel α β γ σ) (surfaceLen beamSize fuel : ℕ)
    (completed : List (BState σ)) :
    beamLoop M surfaceLen beamSize fuel [] completed = completed := by
  cases fuel <;> rfl

theorem beamLoop_cons (M : DecoderModel α β γ σ) (surfaceLen beamSize fuel : ℕ)
    (s : BState σ) (rest completed : List (BState σ)) :
    beamLoop M surfaceLen beamSize (fuel + 1) (s :: rest) completed =
      beamLoop M surfaceLen beamSize fuel
        ((sortDesc (fun st => st.normalized_score)
            (beamRound M surfaceLen beamSize (s :: rest)).1).take beamSize)
        (completed ++ (beamRound M surfaceLen beamSize (s :: rest)).2) := rfl

theorem sortDesc_singleton (f : α → ℚ) (a : α) : sortDesc f [a] = [a] := rfl

theorem beamRound_singleton (M : DecoderModel α β γ σ) (surfaceLen beamSize : ℕ)
    (s : BState σ) :
    beamRound M surfaceLen beamSize [s] = expandState M surfaceLen beamSize s := by
  simp [beamRound]

/-- Invariant for the width-1 beam: as long as every greedy arg-max token
before the first END has id `> 2` and a one-character token string, the
single surviving candidate replays the greedy trace and the unique
completed candidate carries exactly the remaining greedy suffix. -/
theorem beam1_loop_invariant (M : DecoderModel α β γ σ) (h0 : σ) (surfaceLen k : ℕ)
    (hk : traceTok M h0 k = 1)
    (hbefore : ∀ i, i < k →
      2 < traceTok M h0 i ∧ (M.index2token (traceTok M h0 i)).length = 1)
    (hksurf : k < surfaceLen + 2) :
    ∀ (fuel r : ℕ), r ≤ k → k - r + 2 ≤ fuel →
      ∀ (pred : String), pred.length = r →
      ∀ (sc ns : ℚ) (C : List (BState σ)),
      ∃ sc2 ns2 hid2,
        beamLoop M surfaceLen 1 fuel
          [⟨pred, sc, ns, ((traceStep M)^[r] (h0, 2)).2, ((traceStep M)^[r] (h0, 2)).1⟩] C =
          C ++ [⟨pred ++ strJoin ((List.range' r (k - r)).map
              (fun i => M.index2token (traceTok M h0 i))), sc2, ns2, 1, hid2⟩] := by
  intro fuel
  induction fuel with
  | zero => intro r hr hf; omega
  | succ f ih =>
    intro r hr hf pred hpred sc ns C
    have hit : (traceStep M)^[r + 1] (h0, 2) =
        traceStep M ((traceStep M)^[r] (h0, 2)) := Function.iterate_succ_apply' _ _ _
    set st := (traceStep M)^[r] (h0, 2) with hst
    have htokr : traceTok M h0 r = argmaxIdx (M.step st.1 st.2).2 := by
      simp only [traceTok, hit, traceStep]
    have hne : (M.step st.1 st.2).2 ≠ [] := by
      intro hnil
      have hz : argmaxIdx (M.step st.1 st.2).2 = 0 := by rw [hnil]; rfl
      rcases Nat.lt_or_ge r k with hlt | hge
      · have h2 := (hbefore r hlt).1
        rw [htokr, hz] at h2
        omega
      · have hrk : r = k := le_antisymm hr hge
        rw [hrk] at htokr
        rw [hk, hz] at htokr
        omega
    obtain ⟨v, htop⟩ := topk_one _ hne
    have hguard : ¬ (surfaceLen + 2 ≤ (⟨pred, sc, ns, st.2, st.1⟩ : BState σ).prediction.length) := by
      simp only
      omega
    rcases Nat.lt_or_ge r k with hlt | hge
    · -- one more greedy symbol: the single child appends it and survives
      have htokgt : 2 < argmaxIdx (M.step st.1 st.2).2 := htokr ▸ (hbefore r hlt).1
      have htokne : ¬ (argmaxIdx (M.step st.1 st.2).2 = 1) := by omega
      have hexp : expandState M surfaceLen 1 (⟨pred, sc, ns, st.2, st.1⟩ : BState σ) =
          ([⟨pred ++ M.index2token (argmaxIdx (M.step st.1 st.2).2), sc * v,
              (sc * v) / ((5 + (((pred ++ M.index2token (argmaxIdx (M.step st.1 st.2).2)).length : ℚ))) / 6),
              argmaxIdx (M.step st.1 st.2).2, (M.step st.1 st.2).1⟩], []) := by
        rw [expandState, if_neg hguard]
        simp only [htop, List.map_cons, List.map_nil, if_neg htokne]
        simp [List.filter, htokne]
      rw [beamLoop_cons, beamRound_singleton, hexp]
      simp only [sortDesc_singleton, List.take_succ_cons, List.take_nil, List.append_nil]
      have hlast : argmaxIdx (M.step st.1 st.2).2 = ((traceStep M)^[r + 1] (h0, 2)).2 := by
        rw [hit]; rfl
      have hhid : (M.step st.1 st.2).1 = ((traceStep M)^[r + 1] (h0, 2)).1 := by
        rw [hit]; rfl
      have hlen2 : (pred ++ M.index2token (argmaxIdx (M.step st.1 st.2).2)).length = r + 1 := by
        rw [String.length_append, hpred, ← htokr, (hbefore r hlt).2]
      obtain ⟨sc2, ns2, hid2, hrec⟩ := ih (r + 1) hlt (by omega)
        (pred ++ M.index2token (argmaxIdx (M.step st.1 st.2).2)) hlen2
        (sc * v)
        ((sc * v) / ((5 + (((pred ++ M.index2token (argmaxIdx (M.step st.1 st.2).2)).length : ℚ))) / 6))
        C
      refine ⟨sc2, ns2, hid2, ?_⟩
      rw [hlast, hhid] at *
      rw [hrec]
      have hrange : List.range' r (k - r) = r :: List.range' (r + 1) (k - (r + 1)) := by
        have hkr : k - r = (k - (r + 1)) + 1 := by omega
        rw [hkr, List.range'_succ]
      rw [hrange]
      simp only [List.map_cons, strJoin]
      rw [← String.append_assoc]
      have htok : M.index2token (traceTok M h0 r) =
          M.index2token (((traceStep M)^[r + 1] (h0, 2)).2) := rfl
      rw [htok]
    · -- the first END: the single child completes, the loop drains
      have hrk : r = k := le_antisymm hr hge
      have htok1 : argmaxIdx (M.step st.1 st.2).2 = 1 := by
        rw [← htokr, hrk, hk]
      have hexp : expandState M surfaceLen 1 (⟨pred, sc, ns, st.2, st.1⟩ : BState σ) =
          ([], [⟨pred, sc * v,
              ((sc * v) / ((5 + ((pred.length : ℚ) + 1)) / 6)) *
                ((surfaceLen : ℚ) / ((pred.length : ℚ) + 1)), 1, (M.step st.1 st.2).1⟩]) := by
        rw [expandState, if_neg hguard]
        simp only [htop, htok1, List.map_cons, List.map_nil, if_pos rfl]
        simp [List.filter]
      rw [beamLoop_cons, beamRound_singleton, hexp]
      simp only [sortDesc, List.take_nil, beamLoop_nil]
      refine ⟨sc * v,
        ((sc * v) / ((5 + ((pred.length : ℚ) + 1)) / 6)) *
          ((surfaceLen : ℚ) / ((pred.length : ℚ) + 1)), (M.step st.1 st.2).1, ?_⟩
      rw [hrk]
      simp [strJoin, String.append_empty]

theorem takeWhile_prefix_stop (p : ℕ → Bool) :
    ∀ (l1 : List ℕ) (x : ℕ) (l2 : List ℕ),
      (∀ y ∈ l1, p y = true) → p x = false → (l1 ++ x :: l2).takeWhile p = l1 := by
  intro l1
  induction l1 with
  | nil =>
    intro x l2 _ hx
    simp [List.takeWhile_cons, hx]
  | cons a as ih =>
    intro x l2 hall hx
    simp only [List.cons_append, List.takeWhile_cons, hall a (by simp)]
    rw [ih x l2 (fun y hy => hall y (by simp [hy])) hx]
    simp

/-- When the arg-max trace first hits END at step `k < maxLen` and all
earlier tokens have id `> 2`, the greedy loop returns exactly the trace
prefix of length `k`. -/
theorem greedyIds_of_stop (M : DecoderModel α β γ σ) (h0 : σ) (maxLen k : ℕ)
    (hk : traceTok M h0 k = 1)
    (hbefore : ∀ i, i < k → 2 < traceTok M h0 i)
    (hkmax : k < maxLen) :
    greedyIds M maxLen h0 2 = (List.range k).map (traceTok M h0) := by
  have htr := greedyIds_eq_trace M maxLen (h0, 2)
  simp only at htr
  rw [htr]
  have hmr : (List.range maxLen).map (fun i => ((traceStep M)^[i + 1] ((h0, 2) : σ × ℕ)).2) =
      (List.range maxLen).map (traceTok M h0) := rfl
  rw [hmr]
  obtain ⟨m, hm⟩ : ∃ m, maxLen = (k + 1) + m := ⟨maxLen - (k + 1), by omega⟩
  subst hm
  rw [List.range_add, List.range_succ]
  simp only [List.map_append, List.append_assoc, List.map_cons, List.cons_append,
    List.nil_append]
  rw [takeWhile_prefix_stop _ _ _ _ ?hall ?hstop]
  case hall =>
    intro y hy
    obtain ⟨i, hi, rfl⟩ := List.mem_map.mp hy
    have := hbefore i (List.mem_range.mp hi)
    simp
    omega
  case hstop => simp [hk]
  refine List.filter_eq_self.mpr ?_
  intro y hy
  obtain ⟨i, hi, rfl⟩ := List.mem_map.mp hy
  have := hbefore i (List.mem_range.mp hi)
  simp
  omega

/-- C1 (amended): with beam width 1, if the greedy arg-max trace reaches its
first END at step `k`, every earlier token has id `> 2` (so greedy appends
all of them and beam search appends the same ones) and a one-character
token string, and `k` lies below both the greedy cap `maxLen` and the beam
cap `surfaceLen + 2`, then beam-search decoding returns exactly the greedy
symbols joined into a string. -/
theorem predict_beam_one_eq_greedy (M : DecoderModel α β γ σ) (w : α) (cv : β)
    (tc : Option γ) (surfaceLen maxLen k : ℕ)
    (hk : traceTok M (M.initHidden w cv tc) k = 1)
    (hbefore : ∀ i, i < k → 2 < traceTok M (M.initHidden w cv tc) i ∧
      (M.index2token (traceTok M (M.initHidden w cv tc) i)).length = 1)
    (hkmax : k < maxLen) (hksurf : k < surfaceLen + 2) :
    DecoderRNN.predict_beam M w cv tc surfaceLen 1 =
      some (strJoin (DecoderRNN.predict M w cv tc maxLen)) := by
  obtain ⟨sc2, ns2, hid2, hloop⟩ := beam1_loop_invariant M (M.initHidden w cv tc)
    surfaceLen k hk hbefore hksurf (surfaceLen + 3) 0 (Nat.zero_le k) (by omega) "" rfl 1 1 []
  have hcompleted : beamCompleted M w cv tc surfaceLen 1 =
      [⟨"" ++ strJoin ((List.range' 0 (k - 0)).map
          (fun i => M.index2token (traceTok M (M.initHidden w cv tc) i))),
        sc2, ns2, 1, hid2⟩] := by
    rw [beamCompleted]
    exact hloop
  rw [DecoderRNN.predict_beam, hcompleted, sortDesc_singleton]
  simp only [List.head?, Option.map_some]
  have hgreedy : DecoderRNN.predict M w cv tc maxLen =
      ((List.range k).map (traceTok M (M.initHidden w cv tc))).map M.index2token := by
    rw [DecoderRNN.predict, greedyLoop_eq_map,
      greedyIds_of_stop M _ maxLen k hk (fun i hi => (hbefore i hi).1) hkmax]
  rw [hgreedy]
  have hr0 : List.range' 0 (k - 0) = List.range k := by
    rw [Nat.sub_zero, List.range_eq_range']
  rw [hr0, String.empty_append, List.map_map]
  rfl

/-- C2: for every word representation, context vector, optional transformer
context and maximum length, greedy decoding appends only symbols with
vocabulary id `> 2` (so PAD/END/START, ids 0/1/2, never appear in the
returned sequence), returns at most `maxLen` symbols, and equals the
arg-max trace truncated at the first END and filtered to ids `> 2` — the
loop stops at the first END it produces. -/
theorem predict_greedy_spec (M : DecoderModel α β γ σ) (w : α) (cv : β)
    (tc : Option γ) (maxLen : ℕ) :
    (∀ t ∈ greedyIds M maxLen (M.initHidden w cv tc) 2, 2 < t) ∧
    DecoderRNN.predict M w cv tc maxLen =
      (greedyIds M maxLen (M.initHidden w cv tc) 2).map M.index2token ∧
    (DecoderRNN.predict M w cv tc maxLen).length ≤ maxLen ∧
    greedyIds M maxLen (M.initHidden w cv tc) 2 =
      (((List.range maxLen).map (traceTok M (M.initHidden w cv tc))).takeWhile
        (fun t => t ≠ 1)).filter (fun t => 2 < t) := by
  refine ⟨greedyIds_gt_two M maxLen _ 2, greedyLoop_eq_map M maxLen _ 2, ?_, ?_⟩
  · rw [DecoderRNN.predict, greedyLoop_eq_map, List.length_map]
    exact greedyIds_length_le M maxLen _ 2
  · exact greedyIds_eq_trace M maxLen (M.initHidden w cv tc, 2)

/-- C3: in beam search, a candidate at the `surface_len + 2` length cap is
not expanded; every in-progress child of an expansion carries cumulative
score `parent.score * p` for its top-`beam_size` softmax entry `(ix, p)`,
appends its token and is normalized by `(5 + len)/6`; every completed
child (the ones emitting END, id 1) keeps the parent prediction and is
normalized by `(5 + len)/6` with the extra `surface_len / len` factor
(`len` counting the END); and whenever at least one candidate completed,
`predict_beam` returns the prediction of a completed candidate of maximal
normalized score. -/
theorem predict_beam_scoring_spec (M : DecoderModel α β γ σ) (w : α) (cv : β)
    (tc : Option γ) (surfaceLen beamSize : ℕ) (s : BState σ) :
    (surfaceLen + 2 ≤ s.prediction.length →
      expandState M surfaceLen beamSize s = ([], [])) ∧
    (∀ st ∈ (expandState M surfaceLen beamSize s).1,
      ∃ p ∈ topk beamSize (M.step s.hidden s.last_output).2,
        p.1 ≠ 1 ∧ st.score = s.score * p.2 ∧
        st.prediction = s.prediction ++ M.index2token p.1 ∧
        st.normalized_score = st.score / ((5 + (st.prediction.length : ℚ)) / 6)) ∧
    (∀ st ∈ (expandState M surfaceLen beamSize s).2,
      ∃ p ∈ topk beamSize (M.step s.hidden s.last_output).2,
        p.1 = 1 ∧ st.score = s.score * p.2 ∧ st.prediction = s.prediction ∧
        st.normalized_score = (st.score / ((5 + ((s.prediction.length : ℚ) + 1)) / 6)) *
          ((surfaceLen : ℚ) / ((s.prediction.length : ℚ) + 1))) ∧
    (beamCompleted M w cv tc surfaceLen beamSize ≠ [] →
      ∃ b ∈ beamCompleted M w cv tc surfaceLen beamSize,
        DecoderRNN.predict_beam M w cv tc surfaceLen beamSize = some b.prediction ∧
        ∀ b2 ∈ beamCompleted M w cv tc surfaceLen beamSize,
          b2.normalized_score ≤ b.normalized_score) := by
  refine ⟨?_, ?_, ?_, ?_⟩
  · intro h
    rw [expandState, if_pos h]
  · intro st hst
    by_cases hg : surfaceLen + 2 ≤ s.prediction.length
    · rw [expandState, if_pos hg] at hst
      simp at hst
    · rw [expandState, if_neg hg] at hst
      simp only [List.mem_filter, List.mem_map] at hst
      obtain ⟨⟨p, hp, hcp⟩, hlast⟩ := hst
      refine ⟨p, hp, ?_⟩
      by_cases h1 : p.1 = 1
      · exfalso
        rw [← hcp] at hlast
        simp [h1] at hlast
      · subst hcp
        simp [h1]
  · intro st hst
    by_cases hg : surfaceLen + 2 ≤ s.prediction.length
    · rw [expandState, if_pos hg] at hst
      simp at hst
    · rw [expandState, if_neg hg] at hst
      simp only [List.mem_filter, List.mem_map] at hst
      obtain ⟨⟨p, hp, hcp⟩, hlast⟩ := hst
      refine ⟨p, hp, ?_⟩
      by_cases h1 : p.1 = 1
      · subst hcp
        simp [h1]
      · exfalso
        rw [← hcp] at hlast
        simp [h1] at hlast
  · intro hne
    obtain ⟨b, hb1, hb2, hb3⟩ :=
      sortDesc_head_max (fun st => st.normalized_score) _ hne
    refine ⟨b, hb2, ?_, hb3⟩
    rw [DecoderRNN.predict_beam, hb1]
    rfl

/-- C4: if beam search terminates with an empty completed-candidate list
(every candidate hit the `surface_len + 2` cap without emitting END), the
selection `sorted(completed_states, ...)[0]` cannot produce a normal
result: in the source it raises `IndexError`, modelled here as `none` —
never an empty or arbitrary string. -/
theorem predict_beam_empty_completed_fails (M : DecoderModel α β γ σ) (w : α)
    (cv : β) (tc : Option γ) (surfaceLen beamSize : ℕ)
    (h : beamCompleted M w cv tc surfaceLen beamSize = []) :
    DecoderRNN.predict_beam M w cv tc surfaceLen beamSize = none := by
  rw [DecoderRNN.predict_beam, h]
  rfl

/-- Inverse vocabulary of a small concrete test decoder: "P"/"E"/"S" play
PAD/END/START, id 3 is the ordinary symbol "a". -/
def tokName : ℕ → String
  | 0 => "P"
  | 1 => "E"
  | 2 => "S"
  | _ => "a"

/-- Step scores of a concrete decoder whose arg-max sequence is PAD (id 0)
at the first step and END (id 1) afterwards (integer-valued weights, so
that every comparison evaluates by `decide`). -/
def cexProbs : ℕ → List ℚ
  | 0 => [7, 1, 1, 1]
  | _ => [1, 7, 1, 1]

/-- Concrete decoder instance with counter hidden state whose first arg-max
is the PAD id. -/
def Mcex : DecoderModel Unit Unit Unit ℕ where
  initHidden := fun _ _ _ => 0
  step := fun h _ => (h + 1, cexProbs h)
  index2token := tokName

/-- Step scores of a concrete decoder whose arg-max sequence is the
ordinary symbol (id 3) at the first step and END (id 1) afterwards. -/
def okProbs : ℕ → List ℚ
  | 0 => [1, 1, 1, 7]
  | _ => [1, 7, 1, 1]

/-- Concrete decoder instance with counter hidden state that emits one
ordinary symbol and then END. -/
def Mok : DecoderModel Unit Unit Unit ℕ where
  initHidden := fun _ _ _ => 0
  step := fun h _ => (h + 1, okProbs h)
  index2token := tokName

/-- C1 counterexample: on a decoder whose first arg-max token is PAD (id 0),
greedy decoding skips the token (only ids `> 2` are appended) and returns
the empty output, while width-1 beam search appends every non-END token —
including PAD — to its prediction string, so the two outputs differ. -/
theorem predict_beam_one_ne_greedy_cex :
    DecoderRNN.predict_beam Mcex () () none 2 1 ≠
      some (strJoin (DecoderRNN.predict Mcex () () none 4)) := by
  decide

/-- Witness for the amended C1 on a concrete decoder emitting "a" then END:
both decoders return "a". -/
theorem predict_beam_one_eq_greedy_witness :
    traceTok Mok (Mok.initHidden () () none) 1 = 1 ∧
    (∀ i, i < 1 → 2 < traceTok Mok (Mok.initHidden () () none) i ∧
      (Mok.index2token (traceTok Mok (Mok.initHidden () () none) i)).length = 1) ∧
    DecoderRNN.predict_beam Mok () () none 1 1 =
      some (strJoin (DecoderRNN.predict Mok () () none 3)) :=
  ⟨by decide, by decide,
    predict_beam_one_eq_greedy Mok () () none 1 3 1 (by decide) (by decide)
      (by decide) (by decide)⟩

/-- Step scores of a concrete decoder whose arg-max is always the ordinary
symbol (id 3): no candidate ever completes. -/
def loopProbs : ℕ → List ℚ
  | _ => [1, 1, 1, 7]

/-- Concrete decoder instance that never produces END. -/
def Mloop : DecoderModel Unit Unit Unit ℕ where
  initHidden := fun _ _ _ => 0
  step := fun h _ => (h + 1, loopProbs h)
  index2token := tokName

/-- Witness for C4: on a decoder that never emits END, with surface length 1
every beam candidate hits the length cap, the completed list stays empty
and `predict_beam` yields no normal result. -/
theorem predict_beam_empty_completed_fails_witness :
    beamCompleted Mloop () () none 1 1 = [] ∧
    DecoderRNN.predict_beam Mloop () () none 1 1 = none :=
  ⟨by decide, predict_beam_empty_completed_fails Mloop () () none 1 1 (by decide)⟩

/-- Witness for C3, on the concrete decoder `Mcex` with surface length 2 and
beam width 1: a candidate at the cap expands to nothing; the in-progress
child of the start state has score `1 * 7`, appends its token and carries
the `(5+len)/6` normalization; the completed child of a state about to
emit END keeps its prediction and carries the extra `surface_len / len`
factor; and the best completed candidate is returned. -/
theorem predict_beam_scoring_spec_witness :
    expandState Mcex 2 1 ⟨"aaaa", 1, 1, 2, 0⟩ = ([], []) ∧
    (∃ p ∈ topk 1 (Mcex.step 0 2).2, p.1 ≠ 1 ∧ (7 : ℚ) = 1 * p.2 ∧
      "P" = "" ++ Mcex.index2token p.1 ∧
      (7 : ℚ) = 7 / ((5 + ("P".length : ℚ)) / 6)) ∧
    (∃ p ∈ topk 1 (Mcex.step 1 2).2, p.1 = 1 ∧ (7 : ℚ) = 1 * p.2 ∧
      ("" : String) = "" ∧
      (14 : ℚ) = (7 / ((5 + (("".length : ℚ) + 1)) / 6)) *
        ((2 : ℚ) / (("".length : ℚ) + 1))) ∧
    (∃ b ∈ beamCompleted Mcex () () none 2 1,
      DecoderRNN.predict_beam Mcex () () none 2 1 = some b.prediction ∧
      ∀ b2 ∈ beamCompleted Mcex () () none 2 1,
        b2.normalized_score ≤ b.normalized_score) := by
  have hexp1 : expandState Mcex 2 1 ⟨"", 1, 1, 2, 0⟩ =
      ([⟨"P", 7, 7, 0, 1⟩], []) := by
    rw [expandState, if_neg (by decide)]
    norm_num [Mcex, cexProbs, topk, sortDesc, insertDesc, List.enum, List.enumFrom,
      tokName, List.filter, String.empty_append, show "P".length = 1 from rfl]
  have hexp2 : expandState Mcex 2 1 ⟨"", 1, 1, 2, 1⟩ =
      ([], [⟨"", 7, 14, 1, 2⟩]) := by
    rw [expandState, if_neg (by decide)]
    norm_num [Mcex, cexProbs, topk, sortDesc, insertDesc, List.enum, List.enumFrom,
      tokName, List.filter, String.empty_append, show "".length = 0 from rfl]
  refine ⟨(predict_beam_scoring_spec Mcex () () none 2 1 ⟨"aaaa", 1, 1, 2, 0⟩).1
      (by decide), ?_, ?_,
    (predict_beam_scoring_spec Mcex () () none 2 1 ⟨"aaaa", 1, 1, 2, 0⟩).2.2.2
      (by decide)⟩
  · exact (predict_beam_scoring_spec Mcex () () none 2 1 ⟨"", 1, 1, 2, 0⟩).2.1
      ⟨"P", 7, 7, 0, 1⟩ (by rw [hexp1]; simp)
  · exact (predict_beam_scoring_spec Mcex () () none 2 1 ⟨"", 1, 1, 2, 1⟩).2.2.1
      ⟨"", 7, 14, 1, 2⟩ (by rw [hexp2]; simp)

/-- `res.index_add(0, segment_ids, data)` along dimension 0: each pair adds
its vector into the row named by its raw label.  A label outside the
allocated rows is a runtime error in torch, modelled as `none`. -/
def indexAdd {V : Type} [AddMonoid V] : List V → List (ℕ × V) → Option (List V)
  | res, [] => some res
  | res, (i, v) :: rest =>
    if h : i < res.length then indexAdd (res.set i (res.get ⟨i, h⟩ + v)) rest
    else none

/-- `segment_sum` (layers.py:14-22): allocate one zero row per distinct
label value (`torch.unique(segment_ids).shape[0]` — `torch.unique` sorts
and deduplicates, so only the count matters here), then index-add each
embedding into the row named by its raw label.  Rows are vectors in an
additive monoid `V`; the leading batch axis of the source's
`view(1, -1, dim)` is dropped.  torch requires one label per data row
(`none` otherwise). -/
def segment_sum {V : Type} [AddMonoid V] (data : List V) (segment_ids : List ℕ) :
    Option (List V) :=
  if segment_ids.length = data.length then
    indexAdd (List.replicate segment_ids.dedup.length 0) (segment_ids.zip data)
  else none

/-- Sum of the vectors whose label equals `j`. -/
def rowSum {V : Type} [AddMonoid V] (j : ℕ) (pairs : List (ℕ × V)) : V :=
  ((pairs.filter (fun p => p.1 = j)).map Prod.snd).sum

theorem indexAdd_spec {V : Type} [AddMonoid V] :
    ∀ (pairs : List (ℕ × V)) (res : List V),
      (∀ p ∈ pairs, p.1 < res.length) →
      ∃ out, indexAdd res pairs = some out ∧ out.length = res.length ∧
        ∀ j, j < res.length → out.getD j 0 = res.getD j 0 + rowSum j pairs := by
  intro pairs
  induction pairs with
  | nil =>
    intro res _
    exact ⟨res, rfl, rfl, fun j _ => by simp [rowSum]⟩
  | cons iv rest ih =>
    intro res hall
    obtain ⟨i, v⟩ := iv
    have hi : i < res.length := hall (i, v) (by simp)
    have hlen : (res.set i (res.get ⟨i, hi⟩ + v)).length = res.length := by simp
    obtain ⟨out, hout, houtlen, houtval⟩ := ih (res.set i (res.get ⟨i, hi⟩ + v))
      (fun p hp => by rw [hlen]; exact hall p (by simp [hp]))
    refine ⟨out, ?_, by rw [houtlen, hlen], ?_⟩
    · rw [indexAdd, dif_pos hi]
      exact hout
    · intro j hj
      have hval := houtval j (by rw [hlen]; exact hj)
      rw [hval]
      by_cases hij : i = j
      · subst hij
        have hset : (res.set i (res.get ⟨i, hi⟩ + v)).getD i 0 = res.getD i 0 + v := by
          rw [List.getD_eq_getElem _ _ (by rw [hlen]; exact hi),
            List.getElem_set_self, List.getD_eq_getElem _ _ hi]
          rfl
        rw [hset]
        have hrow : rowSum i ((i, v) :: rest) = v + rowSum i rest := by
          simp [rowSum, List.filter]
        rw [hrow, add_assoc]
      · have hset : (res.set i (res.get ⟨i, hi⟩ + v)).getD j 0 = res.getD j 0 := by
          rw [List.getD_eq_getElem _ _ (by rw [hlen]; exact hj),
            List.getElem_set_ne hij, List.getD_eq_getElem _ _ hj]
        rw [hset]
        have hrow : rowSum j ((i, v) :: rest) = rowSum j rest := by
          simp [rowSum, List.filter, hij]
        rw [hrow]

theorem indexAdd_none {V : Type} [AddMonoid V] :
    ∀ (pairs : List (ℕ × V)) (res : List V),
      (∃ p ∈ pairs, res.length ≤ p.1) → indexAdd res pairs = none := by
  intro pairs
  induction pairs with
  | nil =>
    intro res h
    simp at h
  | cons iv rest ih =>
    intro res h
    obtain ⟨i, v⟩ := iv
    by_cases hi : i < res.length
    · rw [indexAdd, dif_pos hi]
      apply ih
      obtain ⟨p, hp, hple⟩ := h
      rcases List.mem_cons.mp hp with h1 | h2
      · exfalso
        rw [h1] at hple
        omega
      · exact ⟨p, h2, by simpa using hple⟩
    · rw [indexAdd, dif_neg hi]

theorem exists_zip_fst {W : Type} :
    ∀ (ids : List ℕ) (data : List W) (x : ℕ), x ∈ ids →
      ids.length = data.length → ∃ p ∈ ids.zip data, p.1 = x := by
  intro ids
  induction ids with
  | nil => intro data x hx; simp at hx
  | cons i rest ih =>
    intro data x hx hlen
    cases data with
    | nil => simp at hlen
    | cons d drest =>
      rcases List.mem_cons.mp hx with h1 | h2
      · exact ⟨(i, d), by simp, h1.symm⟩
      · obtain ⟨p, hp, hpx⟩ := ih drest x h2 (by simpa using hlen)
        exact ⟨p, by simp [hp], hpx⟩

/-- C5: `segment_sum` on four vectors `[a,b,c,d]` with labels `[0,0,1,1]`
yields exactly two rows, `a+b` then `c+d`; in general, whenever every
label is below the number of distinct labels (as is the case for
ascending labels contiguous from 0), the output has one row per distinct
label, and row `j` is the sum of the vectors labelled `j`, in ascending
label order. -/
theorem segment_sum_spec {V : Type} [AddMonoid V] :
    (∀ a b c d : V, segment_sum [a, b, c, d] [0, 0, 1, 1] = some [a + b, c + d]) ∧
    (∀ (data : List V) (ids : List ℕ), ids.length = data.length →
      (∀ x ∈ ids, x < ids.dedup.length) →
      ∃ rows, segment_sum data ids = some rows ∧ rows.length = ids.dedup.length ∧
        ∀ j, j < rows.length → rows.getD j 0 = rowSum j (ids.zip data)) := by
  constructor
  · intro a b c d
    have hd : ([0, 0, 1, 1] : List ℕ).dedup = [0, 1] := by decide
    rw [segment_sum, if_pos (by simp), hd]
    simp [indexAdd, List.set, List.get, zero_add]
  · intro data ids hlen hbound
    obtain ⟨out, hout, houtlen, houtval⟩ := indexAdd_spec (ids.zip data)
      (List.replicate ids.dedup.length 0)
      (fun p hp => by
        rw [List.length_replicate]
        exact hbound p.1 (List.of_mem_zip hp).1)
    refine ⟨out, ?_, by rw [houtlen, List.length_replicate], ?_⟩
    · rw [segment_sum, if_pos hlen]
      exact hout
    · intro j hj
      rw [houtlen, List.length_replicate] at hj
      have hj2 : j < (List.replicate ids.dedup.length (0 : V)).length := by
        rw [List.length_replicate]
        exact hj
      rw [houtval j hj2, List.getD_eq_getElem _ _ hj2, List.getElem_replicate, zero_add]

/-- C10: `segment_sum` allocates one row per distinct label but index-adds
by raw label value, so it succeeds exactly when every label is below the
distinct-label count (for `k` distinct values that forces the value set
`{0, ..., k-1}`); a label sequence with a gap, like `[0,0,2]`, drives the
index-add out of bounds and the operation fails. -/
theorem segment_sum_gap_oob {V : Type} [AddMonoid V] :
    (∀ (data : List V) (ids : List ℕ), ids.length = data.length →
      ((segment_sum data ids).isSome ↔ ∀ x ∈ ids, x < ids.dedup.length)) ∧
    (∀ a b c : V, segment_sum [a, b, c] [0, 0, 2] = none) := by
  constructor
  · intro data ids hlen
    constructor
    · intro hsome x hx
      by_contra hge
      push_neg at hge
      obtain ⟨p, hp, hpx⟩ := exists_zip_fst ids data x hx hlen
      have hnone := indexAdd_none (ids.zip data) (List.replicate ids.dedup.length 0)
        ⟨p, hp, by rw [List.length_replicate, hpx]; exact hge⟩
      rw [segment_sum, if_pos hlen, hnone] at hsome
      simp at hsome
    · intro hbound
      obtain ⟨out, hout, _, _⟩ := indexAdd_spec (ids.zip data)
        (List.replicate ids.dedup.length 0)
        (fun p hp => by
          rw [List.length_replicate]
          exact hbound p.1 (List.of_mem_zip hp).1)
      rw [segment_sum, if_pos hlen, hout]
      rfl
  · intro a b c
    have hd : ([0, 0, 2] : List ℕ).dedup = [0, 2] := by decide
    rw [segment_sum, if_pos (by simp)]
    apply indexAdd_none
    refine ⟨(2, c), by simp [List.zip], ?_⟩
    rw [List.length_replicate, hd]
    simp

/-- Witness for C5 on concrete rational rows. -/
theorem segment_sum_spec_witness :
    segment_sum [(1 : ℚ), 2, 3, 4] [0, 0, 1, 1] = some [1 + 2, 3 + 4] ∧
    (∃ rows, segment_sum [(5 : ℚ), 6, 7] [0, 1, 1] = some rows ∧
      rows.length = ([0, 1, 1] : List ℕ).dedup.length ∧
      ∀ j, j < rows.length →
        rows.getD j 0 = rowSum j (([0, 1, 1] : List ℕ).zip [(5 : ℚ), 6, 7])) :=
  ⟨segment_sum_spec.1 1 2 3 4,
   segment_sum_spec.2 [5, 6, 7] [0, 1, 1] (by simp) (by decide)⟩

/-- Witness for C10: labels `[0,0,2]` have two distinct values but the raw
value 2 indexes outside the two allocated rows. -/
theorem segment_sum_gap_oob_witness :
    ((segment_sum [(1 : ℚ), 2, 3] [0, 0, 2]).isSome ↔
      ∀ x ∈ ([0, 0, 2] : List ℕ), x < ([0, 0, 2] : List ℕ).dedup.length) ∧
    segment_sum [(1 : ℚ), 2, 3] [0, 0, 2] = none :=
  ⟨segment_sum_gap_oob.1 [1, 2, 3] [0, 0, 2] (by simp),
   segment_sum_gap_oob.2 1 2 3⟩

/-- Abstract model of a `DecoderFF` instance at inference time: `scores`
embeds the numeric pipeline of `DecoderFF.predict` (layers.py:585-598) —
`sigmoid(classifier(relu(W(cat(...)))))`, one sigmoid score per
tag-vocabulary entry, a pure function of the word embedding, context
vector and optional transformer context (this predict path applies no
dropout, so it is deterministic). -/
structure FFModel (α β γ : Type) where
  scores : α → β → Option γ → List ℚ
  index2token : ℕ → String

/-- `DecoderFF.predict` (layers.py:570-606): threshold every sigmoid score
strictly at 0.5 (`scores.data > 0.5`), then collect `index2token[ix]` for
every index with `ix > 2` whose score fired — PAD/END/START (ids 0/1/2)
are never emitted. -/
def DecoderFF.predict (M : FFModel α β γ) (w : α) (cv : β) (tc : Option γ) :
    List String :=
  let preds := (M.scores w cv tc).map (fun q => decide ((1 : ℚ)/2 < q))
  (preds.enum.filter (fun p => decide (2 < p.1) && p.2)).map
    (fun p => M.index2token p.1)

/-- C8: feed-forward tag decoding is deterministic (two invocations on the
same inputs agree), an entry appears in the output exactly when its
vocabulary id exceeds 2 and its sigmoid score exceeds 0.5 (in the fixed
ascending id order of the vocabulary), and every returned tag comes from
an id `> 2` whose score fired. -/
theorem decoderFF_predict_spec (M : FFModel α β γ) (w : α) (cv : β) (tc : Option γ) :
    DecoderFF.predict M w cv tc = DecoderFF.predict M w cv tc ∧
    DecoderFF.predict M w cv tc =
      ((M.scores w cv tc).enum.filter
        (fun p => decide (2 < p.1) && decide ((1 : ℚ)/2 < p.2))).map
        (fun p => M.index2token p.1) ∧
    ∀ s ∈ DecoderFF.predict M w cv tc, ∃ ix q,
      (M.scores w cv tc)[ix]? = some q ∧ 2 < ix ∧ (1 : ℚ)/2 < q ∧
      s = M.index2token ix := by
  have hpred : ((fun p : ℕ × Bool => decide (2 < p.1) && p.2) ∘
      Prod.map id (fun q : ℚ => decide ((1 : ℚ)/2 < q))) =
      (fun p : ℕ × ℚ => decide (2 < p.1) && decide ((1 : ℚ)/2 < p.2)) := by
    funext p
    rcases p with ⟨i, q⟩
    simp [Prod.map]
  have hfn : ((fun p : ℕ × Bool => M.index2token p.1) ∘
      Prod.map id (fun q : ℚ => decide ((1 : ℚ)/2 < q))) =
      (fun p : ℕ × ℚ => M.index2token p.1) := by
    funext p
    rcases p with ⟨i, q⟩
    simp [Prod.map]
  have hkey : DecoderFF.predict M w cv tc =
      ((M.scores w cv tc).enum.filter
        (fun p => decide (2 < p.1) && decide ((1 : ℚ)/2 < p.2))).map
        (fun p => M.index2token p.1) := by
    rw [DecoderFF.predict]
    simp only [List.enum_map, List.filter_map, List.map_map]
    rw [hpred, hfn]
  refine ⟨rfl, hkey, ?_⟩
  intro s hs
  rw [hkey] at hs
  obtain ⟨p, hpf, rfl⟩ := List.mem_map.mp hs
  obtain ⟨hpe, hcond⟩ := List.mem_filter.mp hpf
  rw [Bool.and_eq_true, decide_eq_true_eq, decide_eq_true_eq] at hcond
  exact ⟨p.1, p.2, List.mem_enum_iff_getElem?.mp hpe, hcond.1, hcond.2, rfl⟩

/-- Concrete feed-forward tag decoder: five sigmoid scores, indices 0, 1
and 3 above the 0.5 threshold. -/
def Mff : FFModel Unit Unit Unit where
  scores := fun _ _ _ => [1, 1, 0, 1, 0]
  index2token := tokName

/-- Witness for C8 on `Mff`: among the firing scores only index 3 has id
`> 2`; it yields the tag "a". -/
theorem decoderFF_predict_spec_witness :
    DecoderFF.predict Mff () () none =
      ((Mff.scores () () none).enum.filter
        (fun p => decide (2 < p.1) && decide ((1 : ℚ)/2 < p.2))).map
        (fun p => Mff.index2token p.1) ∧
    (∃ ix q, (Mff.scores () () none)[ix]? = some q ∧ 2 < ix ∧ (1 : ℚ)/2 < q ∧
      "a" = Mff.index2token ix) := by
  refine ⟨(decoderFF_predict_spec Mff () () none).2.1, ?_⟩
  have hmem : "a" ∈ DecoderFF.predict Mff () () none := by
    rw [(decoderFF_predict_spec Mff () () none).2.1]
    apply List.mem_map.mpr
    refine ⟨(3, 1), List.mem_filter.mpr ⟨by decide, ?_⟩, rfl⟩
    rw [Bool.and_eq_true]
    exact ⟨by decide, decide_eq_true (by norm_num)⟩
  exact (decoderFF_predict_spec Mff () () none).2.2 "a" hmem

/-- Python `s[:-1]`: the string without its final character (the empty
string stays empty). -/
def dropLastChar (s : String) : String :=
  ⟨s.data.dropLast⟩

/-- `REMOVE_EOS_REGEX.sub('', surface)` (predict.py:20,145): strip one
trailing "$" (the end-of-word marker) if present. -/
def removeEos (s : String) : String :=
  if s.data.getLast? = some ('$' : Char) then dropLastChar s else s

/-- One assembled output record (predict.py:144-146):
`"{}\t{}\t{}\t_\t_\t{}\t_\t_\t_\t_\n".format(i + 1, surface, lemma, morph)`
— ten tab-separated fields ending in a newline. -/
def formatLine (ix : ℕ) (surface lem morph : String) : String :=
  toString ix ++ "\t" ++ surface ++ "\t" ++ lem ++ "\t_\t_\t" ++ morph ++
    "\t_\t_\t_\t_\n"

/-- Abstract model of the trained components `predict_sentence` composes
(predict.py:23-147).  The encoder and decoders are opaque learned
functions; the claims are about how their outputs are assembled.
`isTransformerLemma` is the `isinstance(decoder_lemma, TransformerRNN)`
dispatch; `decodeLemmaBatch` the batched `TransformerRNN.predict` call on
the whole sentence; `decodeLemmaChar` the per-word
`''.join(decoder_lemma.predict(...))` of the character-decoder branch;
`decodeMorph` the per-word morph decode (a tag list, joined with ";"
during assembly).  The per-word decoders may depend on the whole sentence
through the encoder representations, hence the sentence argument. -/
structure SentenceModel where
  isTransformerLemma : Bool
  decodeLemmaBatch : List String → List String
  decodeLemmaChar : List String → ℕ → String
  decodeMorph : List String → ℕ → List String

/-- The `surface2lemma` override stage (predict.py:106-119): for each
(surface, predicted-lemma) pair the lookup key is `surface[:-1]` when the
lemma decoder is a `TransformerRNN` and the surface itself otherwise;
when the key is present the dictionary lemma is used (the
`surface2lemma[_surface] != lemma` test only skips rewriting an already
identical value). -/
def overrideLemmas (isTrans : Bool) (surface2lemma : List (String × String)) :
    List (String × String) → List String
  | [] => []
  | (surface, lem) :: rest =>
    (match surface2lemma.lookup
        (if isTrans then dropLastChar surface else surface) with
     | some forced => if forced ≠ lem then forced else lem
     | none => lem) :: overrideLemmas isTrans surface2lemma rest

/-- `predict_sentence` (predict.py:23-147) over a `SentenceModel` and an
optional `surface2lemma` override dictionary (an association list;
Python's `if surface2lemma:` skips the stage for `None` or the empty
dict, modelled by the empty list): the empty sentence returns ""
immediately (predict.py:50-51); otherwise lemmas are decoded (batched or
per word), optionally overridden, morph tags are decoded per word and
joined with ";", and the output is a `"# Sentence"` comment line followed
by one record per `enumerate(zip(...))` entry, with 1-based index and the
EOS marker stripped from the printed surface. -/
def predict_sentence (M : SentenceModel) (surface2lemma : List (String × String))
    (surface_words : List String) : String :=
  if surface_words.length = 0 then ""
  else
    let lemmas :=
      if M.isTransformerLemma then M.decodeLemmaBatch surface_words
      else (List.range surface_words.length).map (M.decodeLemmaChar surface_words)
    let lemmas2 :=
      if surface2lemma ≠ [] then
        overrideLemmas M.isTransformerLemma surface2lemma (surface_words.zip lemmas)
      else lemmas
    let morphs := (List.range surface_words.length).map
      (fun i => String.intercalate ";" (M.decodeMorph surface_words i))
    "# Sentence\n" ++ strJoin ((surface_words.zip (lemmas2.zip morphs)).enum.map
      (fun p => formatLine (p.1 + 1) (removeEos p.2.1) p.2.2.1 p.2.2.2))

theorem overrideLemmas_length (b : Bool) (d : List (String × String)) :
    ∀ pairs : List (String × String),
      (overrideLemmas b d pairs).length = pairs.length := by
  intro pairs
  induction pairs with
  | nil => rfl
  | cons p rest ih =>
    obtain ⟨su, lem⟩ := p
    simp only [overrideLemmas, List.length_cons, ih]

theorem overrideLemmas_forced (b : Bool) (d : List (String × String)) :
    ∀ (pairs : List (String × String)) (i : ℕ), i < pairs.length →
      ∀ forced : String,
        d.lookup (if b then dropLastChar (pairs.getD i ("", "")).1
                  else (pairs.getD i ("", "")).1) = some forced →
        (overrideLemmas b d pairs).getD i "" = forced := by
  intro pairs
  induction pairs with
  | nil => intro i hi; simp at hi
  | cons p rest ih =>
    intro i hi forced hkey
    obtain ⟨su, lem⟩ := p
    cases i with
    | zero =>
      simp only [List.getD_cons_zero] at hkey
      rw [overrideLemmas]
      simp only [List.getD_cons_zero]
      rw [hkey]
      by_cases heq : forced = lem
      · simp [heq]
      · simp [heq]
    | succ j =>
      simp only [List.getD_cons_succ] at hkey ⊢
      rw [overrideLemmas]
      simp only [List.getD_cons_succ]
      exact ih j (by simpa using hi) forced hkey

theorem range_map_getD {A : Type} (n i : ℕ) (g : ℕ → A) (x : A) (hi : i < n) :
    ((List.range n).map g).getD i x = g i := by
  rw [List.getD_eq_getElem _ _ (by simp [hi])]
  simp

theorem zip_enum_map_format (ws lems morphs : List String)
    (hl : lems.length = ws.length) (hm : morphs.length = ws.length) :
    ((ws.zip (lems.zip morphs)).enum.map
      (fun p => formatLine (p.1 + 1) (removeEos p.2.1) p.2.2.1 p.2.2.2)) =
    (List.range ws.length).map
      (fun i => formatLine (i + 1) (removeEos (ws.getD i ""))
        (lems.getD i "") (morphs.getD i "")) := by
  apply List.ext_getElem
  · simp [List.length_zip, hl, hm]
  · intro i h1 h2
    have hiw : i < ws.length := by simpa using h2
    have hil : i < lems.length := by rw [hl]; exact hiw
    have him : i < morphs.length := by rw [hm]; exact hiw
    simp only [List.getElem_map, List.getElem_enum, List.getElem_range]
    rw [List.getElem_zip, List.getElem_zip]
    rw [List.getD_eq_getElem _ _ hiw, List.getD_eq_getElem _ _ hil,
      List.getD_eq_getElem _ _ him]

/-- Assembly of `predict_sentence` on a non-empty sentence: the output is
the `"# Sentence"` comment line plus one formatted record per word, built
from a final lemma list of the sentence's length that honours the
dictionary override. -/
theorem predict_sentence_assembled (M : SentenceModel)
    (d : List (String × String)) (ws : List String) (hne : ws ≠ [])
    (hbatch : M.isTransformerLemma = true →
      (M.decodeLemmaBatch ws).length = ws.length) :
    ∃ lems : List String, lems.length = ws.length ∧
      (∀ i, i < ws.length → d ≠ [] → ∀ forced,
        d.lookup (if M.isTransformerLemma then dropLastChar (ws.getD i "")
                  else ws.getD i "") = some forced →
        lems.getD i "" = forced) ∧
      predict_sentence M d ws =
        "# Sentence\n" ++ strJoin ((List.range ws.length).map
          (fun i => formatLine (i + 1) (removeEos (ws.getD i ""))
            (lems.getD i "")
            (String.intercalate ";" (M.decodeMorph ws i)))) := by
  have hlen0 : ¬ ws.length = 0 := by simpa using hne
  set lemmas0 := (if M.isTransformerLemma then M.decodeLemmaBatch ws
      else (List.range ws.length).map (M.decodeLemmaChar ws)) with hlem0
  have hl0 : lemmas0.length = ws.length := by
    rw [hlem0]
    by_cases hb : M.isTransformerLemma = true
    · rw [if_pos hb]
      exact hbatch hb
    · rw [if_neg hb]
      simp
  set lems := (if d ≠ [] then
      overrideLemmas M.isTransformerLemma d (ws.zip lemmas0)
    else lemmas0) with hlems
  have hlen : lems.length = ws.length := by
    rw [hlems]
    by_cases hd : d ≠ []
    · rw [if_pos hd, overrideLemmas_length, List.length_zip, hl0, min_self]
    · rw [if_neg hd]
      exact hl0
  set morphs := (List.range ws.length).map
      (fun i => String.intercalate ";" (M.decodeMorph ws i)) with hmor
  have hmlen : morphs.length = ws.length := by
    rw [hmor]
    simp
  refine ⟨lems, hlen, ?_, ?_⟩
  · intro i hi hd forced hkey
    rw [hlems, if_pos hd]
    apply overrideLemmas_forced M.isTransformerLemma d (ws.zip lemmas0) i
      (by rw [List.length_zip, hl0, min_self]; exact hi) forced
    have hzi : i < (ws.zip lemmas0).length := by
      rw [List.length_zip, hl0, min_self]
      exact hi
    have hz : (ws.zip lemmas0).getD i ("", "") = (ws.getD i "", lemmas0.getD i "") := by
      rw [List.getD_eq_getElem _ _ hzi, List.getD_eq_getElem _ _ hi,
        List.getD_eq_getElem _ _ (by rw [hl0]; exact hi), List.getElem_zip]
    rw [hz]
    exact hkey
  · rw [predict_sentence, if_neg hlen0]
    simp only [← hlem0, ← hlems, ← hmor]
    rw [zip_enum_map_format ws lems morphs hlen hmlen]
    congr 1
    congr 1
    apply List.map_congr_left
    intro i hi
    rw [hmor, range_map_getD _ _ _ _ (List.mem_range.mp hi)]

/-- C7: for every non-empty sentence (and any override dictionary; the
batched lemma decoder returns one lemma per word, as `TransformerRNN`'s
per-surface zip does), the returned string is the `"# Sentence"` comment
line followed by exactly one record per word, in word order, whose record
`i` is the ten-field tab-separated template
`formatLine (i+1) surface lemma (tags joined by ";")` with 1-based
incrementing index. -/
theorem predict_sentence_format (M : SentenceModel)
    (d : List (String × String)) (ws : List String) (hne : ws ≠ [])
    (hbatch : M.isTransformerLemma = true →
      (M.decodeLemmaBatch ws).length = ws.length) :
    ∃ lems : List String, lems.length = ws.length ∧
      predict_sentence M d ws =
        "# Sentence\n" ++ strJoin ((List.range ws.length).map
          (fun i => formatLine (i + 1) (removeEos (ws.getD i ""))
            (lems.getD i "")
            (String.intercalate ";" (M.decodeMorph ws i)))) := by
  obtain ⟨lems, h1, _, h3⟩ := predict_sentence_assembled M d ws hne hbatch
  exact ⟨lems, h1, h3⟩

/-- C6 (amended): when the override dictionary is non-empty and the lookup
key of word `i` — the exact surface in character-decoder mode, the
surface with its final character removed in transformation-decoder
(`TransformerRNN`) mode — is a dictionary key mapped to `forced`, the
lemma field of word `i`'s assembled record equals `forced` regardless of
the lemma the decoder itself predicted; the override is applied to the
decoder's output, after decoding. -/
theorem predict_sentence_override (M : SentenceModel)
    (d : List (String × String)) (ws : List String) (i : ℕ) (forced : String)
    (hd : d ≠ []) (hi : i < ws.length)
    (hbatch : M.isTransformerLemma = true →
      (M.decodeLemmaBatch ws).length = ws.length)
    (hkey : d.lookup (if M.isTransformerLemma then dropLastChar (ws.getD i "")
        else ws.getD i "") = some forced) :
    ∃ lems : List String, lems.length = ws.length ∧ lems.getD i "" = forced ∧
      predict_sentence M d ws =
        "# Sentence\n" ++ strJoin ((List.range ws.length).map
          (fun j => formatLine (j + 1) (removeEos (ws.getD j ""))
            (lems.getD j "")
            (String.intercalate ";" (M.decodeMorph ws j)))) := by
  obtain ⟨lems, h1, h2, h3⟩ := predict_sentence_assembled M d ws
    (by intro h; rw [h] at hi; simp at hi) hbatch
  exact ⟨lems, h1, h2 i hi hd forced hkey, h3⟩

/-- C9: the empty sentence short-circuits to the empty string for every
model and dictionary (predict.py:50-51) — no `"# Sentence"` comment line,
no records, and no encoder or decoder output is consulted. -/
theorem predict_sentence_empty (M : SentenceModel)
    (d : List (String × String)) :
    predict_sentence M d [] = "" := rfl

/-- Concrete sentence model in transformation-decoder mode whose lemma
decoder predicts "pred" for every word, with no tags. -/
def M6 : SentenceModel where
  isTransformerLemma := true
  decodeLemmaBatch := fun ws => ws.map (fun _ => "pred")
  decodeLemmaChar := fun _ _ => "pred"
  decodeMorph := fun _ _ => []

/-- C6 counterexample: in transformation-decoder mode the surface `"dog$"`
is an exact key of the non-empty dictionary, yet the assembled record
keeps the decoder's lemma "pred": the source looks up `surface[:-1]`
(here "dog"), not the surface word itself. -/
theorem predict_sentence_override_cex :
    List.lookup "dog$" [("dog$", "canine")] = some "canine" ∧
    predict_sentence M6 [("dog$", "canine")] ["dog$"] =
      "# Sentence\n" ++ formatLine 1 "dog" "pred" "" ∧
    predict_sentence M6 [("dog$", "canine")] ["dog$"] ≠
      "# Sentence\n" ++ formatLine 1 "dog" "canine" "" := by
  refine ⟨by decide, by decide, by decide⟩

/-- Concrete sentence model in character-decoder mode predicting "pred"
with the single tag "T" for every word. -/
def M7 : SentenceModel where
  isTransformerLemma := false
  decodeLemmaBatch := fun ws => ws.map (fun _ => "pred")
  decodeLemmaChar := fun _ _ => "pred"
  decodeMorph := fun _ _ => ["T"]

/-- Witness for the amended C6: character-decoder mode, surface "dog" an
exact dictionary key mapped to "canine". -/
theorem predict_sentence_override_witness :
    ∃ lems : List String, lems.length = (["dog"] : List String).length ∧
      lems.getD 0 "" = "canine" ∧
      predict_sentence M7 [("dog", "canine")] ["dog"] =
        "# Sentence\n" ++ strJoin ((List.range (["dog"] : List String).length).map
          (fun j => formatLine (j + 1) (removeEos ((["dog"] : List String).getD j ""))
            (lems.getD j "")
            (String.intercalate ";" (M7.decodeMorph ["dog"] j)))) :=
  predict_sentence_override M7 [("dog", "canine")] ["dog"] 0 "canine"
    (by decide) (by decide) (by decide) (by decide)

/-- Witness for C7 on the sentence `["running", "fast"]` with no override
dictionary. -/
theorem predict_sentence_format_witness :
    ∃ lems : List String,
      lems.length = (["running", "fast"] : List String).length ∧
      predict_sentence M7 [] ["running", "fast"] =
        "# Sentence\n" ++
          strJoin ((List.range (["running", "fast"] : List String).length).map
            (fun i => formatLine (i + 1)
              (removeEos ((["running", "fast"] : List String).getD i ""))
              (lems.getD i "")
              (String.intercalate ";" (M7.decodeMorph ["running", "fast"] i)))) :=
  predict_sentence_format M7 [] ["running", "fast"] (by decide) (by decide)
